/-
Verification of tpearson1/collatz (src/main.cpp).

The program builds, for each integer in a range, the mapping from an integer
to the integers that reach it in one Collatz step (processValue / buildUpTo),
then lays the resulting tree out (Node::calculateWidth / Node::setPositions)
and renders it.  This file is a shallow embedding of those functions:

* `NodesMap` models `std::unordered_map<int, std::vector<int>>` as an
  association list; lookup (`findVal`), insertion and `push_back` (`pushAt`)
  follow the C++ operations.
* `processValueGen` is the memoized insert-and-recurse procedure
  `processValue`, with an explicit fuel parameter standing for the call
  stack (the C++ recursion has no structural termination measure).  It is
  instantiated with the mathematical-integer Collatz step `collatzNext`
  (matching the spec's integer data model) and with the 32-bit wraparound
  step `next32` (matching the machine-integer reading).
* `buildUpTo` mirrors the C++ `buildUpTo`, returning `Except` for the thrown
  `std::runtime_error` and `Option` for fuel exhaustion.
-/
import Mathlib

namespace Collatz

/-- Model of `using NodesMap = std::unordered_map<int, std::vector<int>>`.
Modelled as an association list; only key membership and the per-key vectors
are observable in the program. -/
abbrev NodesMap := List (Int × List Int)

/-- Lookup of a key, as `nodes.find(value)`. -/
def findVal : NodesMap → Int → Option (List Int)
  | [], _ => none
  | (k, l) :: rest, v => if k = v then some l else findVal rest v

/-- The vector stored at key `w` (empty when `w` is absent). -/
def valList (m : NodesMap) (w : Int) : List Int :=
  (findVal m w).getD []

/-- Model of `nodes[key].push_back(x)` for a present key: append `x` to the vector of
every entry whose key is `key` (keys are inserted at most once, so at most
one entry is touched). -/
def pushAt : NodesMap → Int → Int → NodesMap
  | [], _, _ => []
  | (k, l) :: rest, key, x =>
      (k, if k = key then l ++ [x] else l) :: pushAt rest key x

/-- Translation of `int next = value % 2 == 0 ? value / 2 : 3 * value + 1;` with C++
truncating division (`Int.tdiv`).  The parity test agrees between C++ `%`
and Lean `%` since both are zero exactly on even numbers. -/
def collatzNext (n : Int) : Int :=
  if n % 2 = 0 then n.tdiv 2 else 3 * n + 1

/-- Iterated application of a step function: `stepIter step k v = step^k v`. -/
def stepIter (step : Int → Int) : Nat → Int → Int
  | 0, v => v
  | k + 1, v => stepIter step k (step v)

/-- Translation of `processValue(nodes, value)`, generic in the successor function.
`fuel` bounds the recursion depth; `none` means fuel ran out.  Mirrors the
C++ body: if the key is present return the map unchanged; otherwise insert
`value` with an empty vector, recurse on the successor, then push `value`
onto the successor's vector. -/
def processValueGen (step : Int → Int) : Nat → NodesMap → Int → Option NodesMap
  | 0, _, _ => none
  | fuel + 1, m, v =>
    match findVal m v with
    | some _ => some m
    | none =>
      match processValueGen step fuel ((v, []) :: m) (step v) with
      | none => none
      | some m2 => some (pushAt m2 (step v) v)

/-- Instance of `processValue` with the source's Collatz step on mathematical integers. -/
def processValue (fuel : Nat) (m : NodesMap) (v : Int) : Option NodesMap :=
  processValueGen collatzNext fuel m v

/-- The loop `for (int i = 2; i < high; i++) processValue(nodes, i);`,
generalized to `count` iterations starting at `start`. -/
def processRange (step : Int → Int) (fuel : Nat) :
    NodesMap → Int → Nat → Option NodesMap
  | m, _, 0 => some m
  | m, start, count + 1 =>
    match processValueGen step fuel m start with
    | none => none
    | some m1 => processRange step fuel m1 (start + 1) count

/-- Translation of `buildUpTo(high)`: throw on `high <= 0`, seed key 1 with an empty vector,
then process `2, …, high - 1`.  `Except.error` is the thrown
`std::runtime_error`; the outer `Option` is fuel exhaustion. -/
def buildUpTo (fuel : Nat) (high : Int) : Option (Except String NodesMap) :=
  if high ≤ 0 then
    some (Except.error "Cannot create tree with integers zero or lower")
  else
    (processRange collatzNext fuel [(1, [])] 2 (high - 2).toNat).map Except.ok

/-- Number of occurrences of `n` in a list (used for the "appears exactly
once" parts of the spec). -/
def countOcc (n : Int) : List Int → Nat
  | [] => 0
  | x :: xs => (if x = n then 1 else 0) + countOcc n xs

lemma countOcc_append (n : Int) (l1 l2 : List Int) :
    countOcc n (l1 ++ l2) = countOcc n l1 + countOcc n l2 := by
  induction l1 with
  | nil => simp [countOcc]
  | cons x xs ih => simp [countOcc, ih]; omega

lemma countOcc_pos_mem {n : Int} {l : List Int} (h : n ∈ l) :
    0 < countOcc n l := by
  induction l with
  | nil => cases h
  | cons x xs ih =>
    rcases List.mem_cons.mp h with h1 | h2
    · subst h1; simp [countOcc]
    · have := ih h2; simp [countOcc]; omega

lemma mem_of_countOcc_pos {n : Int} {l : List Int} (h : 0 < countOcc n l) :
    n ∈ l := by
  induction l with
  | nil => simp [countOcc] at h
  | cons x xs ih =>
    by_cases hx : x = n
    · subst hx; exact List.mem_cons_self _ _
    · simp [countOcc, hx] at h
      exact List.mem_cons_of_mem _ (ih h)

lemma findVal_cons (k : Int) (l : List Int) (m : NodesMap) (w : Int) :
    findVal ((k, l) :: m) w = if k = w then some l else findVal m w := rfl

lemma findVal_pushAt (m : NodesMap) (key x w : Int) :
    findVal (pushAt m key x) w =
      (findVal m w).map (fun l => if key = w then l ++ [x] else l) := by
  induction m with
  | nil => simp [pushAt, findVal]
  | cons p rest ih =>
    obtain ⟨k, l⟩ := p
    by_cases hk : k = w
    · subst hk
      by_cases hkey : key = k
      · subst hkey; simp [pushAt, findVal]
      · have hkey' : ¬k = key := fun h => hkey h.symm
        simp [pushAt, findVal, hkey, hkey']
    · simp [pushAt, findVal, hk, ih]

lemma findVal_pushAt_none_iff (m : NodesMap) (key x w : Int) :
    findVal (pushAt m key x) w = none ↔ findVal m w = none := by
  rw [findVal_pushAt]; cases findVal m w <;> simp

lemma valList_pushAt_ne {key w : Int} (m : NodesMap) (x : Int) (h : key ≠ w) :
    valList (pushAt m key x) w = valList m w := by
  unfold valList
  rw [findVal_pushAt]
  cases findVal m w <;> simp [h]

lemma valList_pushAt_self {key : Int} {m : NodesMap} (x : Int)
    (h : findVal m key ≠ none) :
    valList (pushAt m key x) key = valList m key ++ [x] := by
  unfold valList
  rw [findVal_pushAt]
  cases hf : findVal m key with
  | none => exact absurd hf h
  | some l => simp

lemma valList_eq_nil_of_none {m : NodesMap} {w : Int}
    (h : findVal m w = none) : valList m w = [] := by
  unfold valList; rw [h]; rfl

/-- If `processValueGen` succeeds, every key of the input map is a key of
the output map. -/
lemma pvg_keys_mono (step : Int → Int) :
    ∀ (fuel : Nat) (m m' : NodesMap) (v w : Int),
      processValueGen step fuel m v = some m' →
      findVal m w ≠ none → findVal m' w ≠ none := by
  intro fuel
  induction fuel with
  | zero => intro m m' v w h; simp [processValueGen] at h
  | succ fuel ih =>
    intro m m' v w h hw
    rw [processValueGen] at h
    cases hfv : findVal m v with
    | some l =>
      rw [hfv] at h
      cases h; exact hw
    | none =>
      rw [hfv] at h
      cases hrec : processValueGen step fuel ((v, []) :: m) (step v) with
      | none => rw [hrec] at h; cases h
      | some m2 =>
        rw [hrec] at h
        cases h
        have h1 : findVal ((v, []) :: m) w ≠ none := by
          rw [findVal_cons]
          by_cases hv : v = w <;> simp [hv, hw]
        have h2 := ih _ _ _ w hrec h1
        rw [ne_eq, findVal_pushAt_none_iff]
        exact h2

/-- If `processValueGen` succeeds on `v`, then `v` is a key afterwards. -/
lemma pvg_self_key (step : Int → Int) :
    ∀ (fuel : Nat) (m m' : NodesMap) (v : Int),
      processValueGen step fuel m v = some m' →
      findVal m' v ≠ none := by
  intro fuel
  induction fuel with
  | zero => intro m m' v h; simp [processValueGen] at h
  | succ fuel ih =>
    intro m m' v h
    rw [processValueGen] at h
    cases hfv : findVal m v with
    | some l => rw [hfv] at h; cases h; simp [hfv]
    | none =>
      rw [hfv] at h
      cases hrec : processValueGen step fuel ((v, []) :: m) (step v) with
      | none => rw [hrec] at h; cases h
      | some m2 =>
        rw [hrec] at h
        cases h
        have h1 : findVal ((v, []) :: m) v ≠ none := by
          rw [findVal_cons]; simp
        have h2 := pvg_keys_mono step fuel _ _ _ v hrec h1
        rw [ne_eq, findVal_pushAt_none_iff]
        exact h2

lemma findVal_cons_none {k0 : Int} {l : List Int} {m : NodesMap} {u : Int}
    (h : findVal ((k0, l) :: m) u = none) : findVal m u = none := by
  rw [findVal_cons] at h
  by_cases hk : k0 = u
  · rw [if_pos hk] at h; cases h
  · rwa [if_neg hk] at h

/-- The single bookkeeping fact about `processValue`: a successful call adds
exactly one occurrence of each newly inserted key `n`, in the vector of
`step n`, and changes no other occurrence count. -/
lemma pvg_count (step : Int → Int) :
    ∀ (fuel : Nat) (m m' : NodesMap) (v : Int),
      processValueGen step fuel m v = some m' →
      ∀ (n w : Int),
        countOcc n (valList m' w) =
          countOcc n (valList m w) +
            (if findVal m' n ≠ none ∧ findVal m n = none ∧ w = step n then 1
             else 0) := by
  intro fuel
  induction fuel with
  | zero => intro m m' v h; simp [processValueGen] at h
  | succ fuel ih =>
    intro m m' v h n w
    rw [processValueGen] at h
    cases hfv : findVal m v with
    | some l =>
      rw [hfv] at h
      cases h
      have hcond : ¬(findVal m n ≠ none ∧ findVal m n = none ∧ w = step n) :=
        fun hc => hc.1 hc.2.1
      rw [if_neg hcond]
      omega
    | none =>
      rw [hfv] at h
      cases hrec : processValueGen step fuel ((v, []) :: m) (step v) with
      | none => rw [hrec] at h; cases h
      | some m2 =>
        rw [hrec] at h
        cases h
        have hself : findVal m2 (step v) ≠ none :=
          pvg_self_key step fuel _ _ _ hrec
        have hv1 : findVal ((v, []) :: m) v ≠ none := by
          rw [findVal_cons]; simp
        have hvKeys2 : findVal m2 v ≠ none :=
          pvg_keys_mono step fuel _ _ _ v hrec hv1
        have hval1 : ∀ u, valList ((v, []) :: m) u = valList m u := by
          intro u
          unfold valList
          rw [findVal_cons]
          by_cases hvu : v = u
          · subst hvu; rw [if_pos rfl, hfv]; rfl
          · rw [if_neg hvu]
        by_cases hn : n = v
        · subst hn
          have hm'n : findVal (pushAt m2 (step n) n) n ≠ none := by
            rw [ne_eq, findVal_pushAt_none_iff]; exact hvKeys2
          by_cases hw : w = step n
          · subst hw
            rw [valList_pushAt_self n hself, countOcc_append]
            have := ih _ _ _ hrec n (step n)
            rw [this, hval1]
            have hc2 : ¬(findVal m2 n ≠ none ∧
                findVal ((n, []) :: m) n = none ∧ step n = step n) := by
              rintro ⟨-, hb, -⟩
              rw [findVal_cons, if_pos rfl] at hb
              cases hb
            rw [if_neg hc2, if_pos ⟨hm'n, hfv, rfl⟩]
            simp [countOcc]
          · have hne : step n ≠ w := fun hh => hw hh.symm
            rw [valList_pushAt_ne _ _ hne]
            have := ih _ _ _ hrec n w
            rw [this, hval1]
            have hc2 : ¬(findVal m2 n ≠ none ∧
                findVal ((n, []) :: m) n = none ∧ w = step n) := by
              rintro ⟨-, hb, -⟩
              rw [findVal_cons, if_pos rfl] at hb
              cases hb
            have hc3 : ¬(findVal (pushAt m2 (step n) n) n ≠ none ∧
                findVal m n = none ∧ w = step n) := by
              rintro ⟨-, -, hc⟩
              exact hw hc
            rw [if_neg hc2, if_neg hc3]
        · have hvn : ¬v = n := fun hh => hn hh.symm
          have hcnt : ∀ u,
              countOcc n (valList (pushAt m2 (step v) v) u) =
                countOcc n (valList m2 u) := by
            intro u
            by_cases hu : step v = u
            · subst hu
              rw [valList_pushAt_self v hself, countOcc_append]
              simp [countOcc, hvn]
            · rw [valList_pushAt_ne _ _ hu]
          have hkeyEq : (findVal (pushAt m2 (step v) v) n ≠ none) ↔
              (findVal m2 n ≠ none) :=
            not_congr (findVal_pushAt_none_iff m2 (step v) v n)
          have hkey1Eq : (findVal ((v, []) :: m) n = none) ↔
              (findVal m n = none) := by
            rw [findVal_cons, if_neg hvn]
          have hcond : (findVal m2 n ≠ none ∧
              findVal ((v, []) :: m) n = none ∧ w = step n) ↔
              (findVal (pushAt m2 (step v) v) n ≠ none ∧
                findVal m n = none ∧ w = step n) := by
            rw [hkeyEq, hkey1Eq]
          rw [hcnt w, ih _ _ _ hrec n w, hval1 w, if_congr hcond rfl rfl]

/-- Every key of the output of `processValue` is either an old key or an
iterate of `v` all of whose earlier iterates (itself included) were absent
from the input map. -/
lemma pvg_new_keys (step : Int → Int) :
    ∀ (fuel : Nat) (m m' : NodesMap) (v : Int),
      processValueGen step fuel m v = some m' →
      ∀ n, findVal m' n ≠ none →
        findVal m n ≠ none ∨
          ∃ k, stepIter step k v = n ∧
            ∀ j, j ≤ k → findVal m (stepIter step j v) = none := by
  intro fuel
  induction fuel with
  | zero => intro m m' v h; simp [processValueGen] at h
  | succ fuel ih =>
    intro m m' v h n hn
    rw [processValueGen] at h
    cases hfv : findVal m v with
    | some l => rw [hfv] at h; cases h; exact Or.inl hn
    | none =>
      rw [hfv] at h
      cases hrec : processValueGen step fuel ((v, []) :: m) (step v) with
      | none => rw [hrec] at h; cases h
      | some m2 =>
        rw [hrec] at h
        cases h
        rw [ne_eq, findVal_pushAt_none_iff] at hn
        rcases ih _ _ _ hrec n hn with h1 | ⟨k, hk, hall⟩
        · rw [ne_eq, findVal_cons] at h1
          by_cases hvn : v = n
          · refine Or.inr ⟨0, hvn, ?_⟩
            intro j hj
            interval_cases j
            exact hfv
          · rw [if_neg hvn] at h1
            exact Or.inl h1
        · refine Or.inr ⟨k + 1, hk, ?_⟩
          intro j hj
          cases j with
          | zero => exact hfv
          | succ j' =>
            have hj' : j' ≤ k := Nat.le_of_succ_le_succ hj
            exact findVal_cons_none (hall j' hj')

/-- Keys survive the whole range loop. -/
lemma prg_keys_mono (step : Int → Int) (fuel : Nat) :
    ∀ (count : Nat) (m m' : NodesMap) (start w : Int),
      processRange step fuel m start count = some m' →
      findVal m w ≠ none → findVal m' w ≠ none := by
  intro count
  induction count with
  | zero => intro m m' start w h hw; cases h; exact hw
  | succ count ih =>
    intro m m' start w h hw
    rw [processRange] at h
    cases hpv : processValueGen step fuel m start with
    | none => rw [hpv] at h; cases h
    | some m1 =>
      rw [hpv] at h
      exact ih _ _ _ w h (pvg_keys_mono step fuel _ _ _ w hpv hw)

/-- Every index processed by the range loop is a key of the final map. -/
lemma prg_idx_key (step : Int → Int) (fuel : Nat) :
    ∀ (count : Nat) (m m' : NodesMap) (start : Int),
      processRange step fuel m start count = some m' →
      ∀ d : Nat, d < count → findVal m' (start + (d : Int)) ≠ none := by
  intro count
  induction count with
  | zero => intro m m' start h d hd; omega
  | succ count ih =>
    intro m m' start h d hd
    rw [processRange] at h
    cases hpv : processValueGen step fuel m start with
    | none => rw [hpv] at h; cases h
    | some m1 =>
      rw [hpv] at h
      cases d with
      | zero =>
        have h1 := pvg_self_key step fuel _ _ _ hpv
        have := prg_keys_mono step fuel _ _ _ _ start h h1
        simpa using this
      | succ d' =>
        have hd' : d' < count := by omega
        have := ih _ _ _ h d' hd'
        have harith : start + 1 + (d' : Int) = start + ((d' : Nat) + 1 : Nat) := by
          push_cast; ring
        rwa [harith] at this

/-- Lemma `pvg_count` telescoped over the range loop. -/
lemma prg_count (step : Int → Int) (fuel : Nat) :
    ∀ (count : Nat) (m m' : NodesMap) (start : Int),
      processRange step fuel m start count = some m' →
      ∀ (n w : Int),
        countOcc n (valList m' w) =
          countOcc n (valList m w) +
            (if findVal m' n ≠ none ∧ findVal m n = none ∧ w = step n then 1
             else 0) := by
  intro count
  induction count with
  | zero =>
    intro m m' start h n w
    cases h
    have hcond : ¬(findVal m n ≠ none ∧ findVal m n = none ∧ w = step n) :=
      fun hc => hc.1 hc.2.1
    rw [if_neg hcond]
    omega
  | succ count ih =>
    intro m m' start h n w
    rw [processRange] at h
    cases hpv : processValueGen step fuel m start with
    | none => rw [hpv] at h; cases h
    | some m1 =>
      rw [hpv] at h
      have hmono1 : findVal m n ≠ none → findVal m1 n ≠ none :=
        pvg_keys_mono step fuel _ _ _ n hpv
      have hmono2 : findVal m1 n ≠ none → findVal m' n ≠ none :=
        prg_keys_mono step fuel _ _ _ _ n h
      rw [ih _ _ _ h n w, pvg_count step fuel _ _ _ hpv n w]
      by_cases hw : w = step n
      · by_cases h0 : findVal m n = none
        · by_cases h1 : findVal m1 n = none
          · by_cases h2 : findVal m' n = none
            · simp [h0, h1, h2, hw]
            · simp [h0, h1, h2, hw]
          · have h2 : findVal m' n ≠ none := hmono2 h1
            simp [h0, h1, h2, hw]
        · have h1 : findVal m1 n ≠ none := hmono1 h0
          have h2 : findVal m' n ≠ none := hmono2 h1
          simp [h0, h1, h2, hw]
      · simp [hw]

/-- Every key of the map produced by the range loop is an old key or an
iterate (with no `1` at or before it) of one of the processed indices.
Requires `1` to be a key already, as `buildUpTo` seeds it. -/
lemma prg_new_keys (step : Int → Int) (fuel : Nat) :
    ∀ (count : Nat) (m m' : NodesMap) (start : Int),
      processRange step fuel m start count = some m' →
      findVal m 1 ≠ none →
      ∀ n, findVal m' n ≠ none →
        findVal m n ≠ none ∨
          ∃ (d k : Nat), d < count ∧
            stepIter step k (start + (d : Int)) = n ∧
            ∀ j, j ≤ k → stepIter step j (start + (d : Int)) ≠ 1 := by
  intro count
  induction count with
  | zero => intro m m' start h h1 n hn; cases h; exact Or.inl hn
  | succ count ih =>
    intro m m' start h hone n hn
    rw [processRange] at h
    cases hpv : processValueGen step fuel m start with
    | none => rw [hpv] at h; cases h
    | some m1 =>
      rw [hpv] at h
      have hone1 : findVal m1 1 ≠ none := pvg_keys_mono step fuel _ _ _ 1 hpv hone
      rcases ih _ _ _ h hone1 n hn with h1 | ⟨d, k, hd, hk, hall⟩
      · rcases pvg_new_keys step fuel _ _ _ hpv n h1 with h2 | ⟨k, hk, hall⟩
        · exact Or.inl h2
        · refine Or.inr ⟨0, k, by omega, by simpa using hk, ?_⟩
          intro j hj hcontra
          have := hall j hj
          rw [show start + ((0 : Nat) : Int) = start by simp] at hcontra
          rw [hcontra] at this
          exact hone this
      · refine Or.inr ⟨d + 1, k, by omega, ?_, ?_⟩
        · have harith : start + ((d : Nat) + 1 : Nat) = start + 1 + (d : Int) := by
            push_cast; ring
          rw [harith]
          exact hk
        · intro j hj
          have harith : start + ((d : Nat) + 1 : Nat) = start + 1 + (d : Int) := by
            push_cast; ring
          rw [harith]
          exact hall j hj

/-- Unpacking a successful `buildUpTo` run. -/
lemma buildUpTo_ok {fuel : Nat} {high : Int} {m : NodesMap}
    (h : buildUpTo fuel high = some (Except.ok m)) :
    0 < high ∧
      processRange collatzNext fuel [(1, [])] 2 (high - 2).toNat = some m := by
  unfold buildUpTo at h
  by_cases hh : high ≤ 0
  · rw [if_pos hh] at h; simp at h
  · rw [if_neg hh] at h
    refine ⟨by omega, ?_⟩
    cases hpr : processRange collatzNext fuel [(1, [])] 2 (high - 2).toNat with
    | none => rw [hpr] at h; simp at h
    | some m0 =>
      rw [hpr] at h
      simp at h
      rw [h]

lemma seed_key_one : findVal [((1 : Int), ([] : List Int))] 1 ≠ none := by
  rw [findVal_cons]; simp

lemma seed_key_iff (n : Int) :
    findVal [((1 : Int), ([] : List Int))] n = none ↔ n ≠ 1 := by
  rw [findVal_cons]
  by_cases h : (1 : Int) = n
  · subst h; simp
  · rw [if_neg h]
    simp [findVal]
    omega

lemma seed_valList (w : Int) :
    valList [((1 : Int), ([] : List Int))] w = [] := by
  unfold valList
  rw [findVal_cons]
  by_cases h : (1 : Int) = w <;> simp [h, findVal]

/-- The Collatz step keeps positive integers positive. -/
lemma collatzNext_pos {n : Int} (h : 1 ≤ n) : 1 ≤ collatzNext n := by
  unfold collatzNext
  by_cases hpar : n % 2 = 0
  · rw [if_pos hpar]
    rw [Int.tdiv_eq_ediv (by omega) (by omega)]
    omega
  · rw [if_neg hpar]
    omega

lemma stepIter_succ_eq (step : Int → Int) (k : Nat) (v : Int) :
    stepIter step (k + 1) v = step (stepIter step k v) := by
  induction k generalizing v with
  | zero => rfl
  | succ k ih =>
    show stepIter step (k + 1) (step v) = step (stepIter step (k + 1) v)
    rw [ih (step v)]
    rfl

lemma stepIter_collatz_pos (k : Nat) {v : Int} (h : 1 ≤ v) :
    1 ≤ stepIter collatzNext k v := by
  induction k generalizing v with
  | zero => exact h
  | succ k ih => exact ih (collatzNext_pos h)

/-- Claim C1: for every `high > 0`, the map returned by `buildUpTo high`
has as keys exactly 1, the integers in `[2, high)`, and the intermediate
Collatz iterates (taken before the trajectory reaches 1) of those integers
that are `≥ high`; moreover every key `n ≠ 1` has `collatzNext n` as a key
and occurs exactly once in the vector stored at `collatzNext n`. -/
theorem c1_buildUpTo_map (high : Int) (fuel : Nat) (m : NodesMap) (n : Int)
    (h : buildUpTo fuel high = some (Except.ok m)) :
    ((findVal m n ≠ none) ↔
      (n = 1 ∨ (2 ≤ n ∧ n < high) ∨
        (high ≤ n ∧ ∃ i, 2 ≤ i ∧ i < high ∧ ∃ k, 1 ≤ k ∧
          stepIter collatzNext k i = n ∧
          ∀ j, j ≤ k → stepIter collatzNext j i ≠ 1)))
    ∧ (findVal m n ≠ none → n ≠ 1 →
        findVal m (collatzNext n) ≠ none ∧
        countOcc n (valList m (collatzNext n)) = 1) := by
  obtain ⟨hhigh, hpr⟩ := buildUpTo_ok h
  have part2 : ∀ n', findVal m n' ≠ none → n' ≠ 1 →
      findVal m (collatzNext n') ≠ none ∧
      countOcc n' (valList m (collatzNext n')) = 1 := by
    intro n' hkey hne
    have hseedAbsent : findVal [((1 : Int), ([] : List Int))] n' = none :=
      (seed_key_iff n').mpr hne
    have h1 := prg_count collatzNext fuel _ _ _ _ hpr n' (collatzNext n')
    rw [seed_valList] at h1
    rw [if_pos ⟨hkey, hseedAbsent, rfl⟩] at h1
    have hcnt : countOcc n' (valList m (collatzNext n')) = 1 := by
      rw [h1]; rfl
    refine ⟨?_, hcnt⟩
    intro hnone
    rw [valList_eq_nil_of_none hnone] at hcnt
    simp [countOcc] at hcnt
  refine ⟨⟨?_, ?_⟩, part2 n⟩
  · -- forward: every key is as described
    intro hkey
    rcases prg_new_keys collatzNext fuel _ _ _ _ hpr seed_key_one n hkey with
      h1 | ⟨d, k, hd, hk, hall⟩
    · left
      by_contra hne
      exact h1 ((seed_key_iff n).mpr hne)
    · have hi2 : (2 : Int) ≤ 2 + (d : Int) := by omega
      have hiHigh : (2 : Int) + (d : Int) < high := by omega
      have hn1 : n ≠ 1 := by
        have := hall k le_rfl
        rwa [hk] at this
      have hnpos : 1 ≤ n := by
        rw [← hk]
        exact stepIter_collatz_pos k (by omega)
      by_cases hcase : n < high
      · right; left
        omega
      · right; right
        refine ⟨by omega, 2 + (d : Int), hi2, hiHigh, k, ?_, hk, hall⟩
        rcases Nat.eq_zero_or_pos k with hk0 | hkpos
        · subst hk0
          have hkk : (2 : Int) + (d : Int) = n := hk
          omega
        · omega
  · -- backward: everything described is a key
    rintro (h1 | ⟨hn2, hnh⟩ | ⟨hnh, i, hi2, hih, k, hk1, hk, hall⟩)
    · subst h1
      exact prg_keys_mono collatzNext fuel _ _ _ _ 1 hpr seed_key_one
    · have hd : (n - 2).toNat < (high - 2).toNat := by omega
      have := prg_idx_key collatzNext fuel _ _ _ _ hpr (n - 2).toNat hd
      have harith : (2 : Int) + ((n - 2).toNat : Int) = n := by omega
      rwa [harith] at this
    · have hdI : (i - 2).toNat < (high - 2).toNat := by omega
      have hikey := prg_idx_key collatzNext fuel _ _ _ _ hpr (i - 2).toNat hdI
      have harith : (2 : Int) + ((i - 2).toNat : Int) = i := by omega
      rw [harith] at hikey
      have hchain : ∀ j, j ≤ k →
          findVal m (stepIter collatzNext j i) ≠ none := by
        intro j
        induction j with
        | zero => intro _; exact hikey
        | succ j' ihj =>
          intro hj
          have hj' : j' ≤ k := Nat.le_of_succ_le hj
          have hkeyj := ihj hj'
          have hne1 : stepIter collatzNext j' i ≠ 1 := hall j' hj'
          have hnext := (part2 _ hkeyj hne1).1
          rwa [stepIter_succ_eq]
      have := hchain k le_rfl
      rwa [hk] at this

/-- Witness for C1 at `high = 5`, `fuel = 64`, `n = 4`. -/
theorem c1_buildUpTo_map_witness :
    ((findVal [((4 : Int), [8]), (8, [16]), (16, [5]), (5, [10]), (10, [3]),
        (3, []), (2, [4]), (1, [2])] 4 ≠ none) ↔
      ((4 : Int) = 1 ∨ ((2 : Int) ≤ 4 ∧ (4 : Int) < 5) ∨
        ((5 : Int) ≤ 4 ∧ ∃ i, 2 ≤ i ∧ i < 5 ∧ ∃ k, 1 ≤ k ∧
          stepIter collatzNext k i = 4 ∧
          ∀ j, j ≤ k → stepIter collatzNext j i ≠ 1)))
    ∧ (findVal [((4 : Int), [8]), (8, [16]), (16, [5]), (5, [10]), (10, [3]),
        (3, []), (2, [4]), (1, [2])] 4 ≠ none → (4 : Int) ≠ 1 →
        findVal [((4 : Int), [8]), (8, [16]), (16, [5]), (5, [10]), (10, [3]),
          (3, []), (2, [4]), (1, [2])] (collatzNext 4) ≠ none ∧
        countOcc 4 (valList [((4 : Int), [8]), (8, [16]), (16, [5]), (5, [10]),
          (10, [3]), (3, []), (2, [4]), (1, [2])] (collatzNext 4)) = 1) :=
  c1_buildUpTo_map 5 64 _ 4 rfl

/-- Claim C5: `buildUpTo high` fails with the invalid-range error exactly
when `high ≤ 0`; this is the only thrown input error, it is signaled before
any processing (the error result carries no map entries), and in particular
`buildUpTo 0` and `buildUpTo (-5)` fail. -/
theorem c5_invalid_range (fuel : Nat) (high : Int) :
    (buildUpTo fuel high =
        some (Except.error "Cannot create tree with integers zero or lower") ↔
      high ≤ 0)
    ∧ ((∃ e, buildUpTo fuel high = some (Except.error e)) ↔ high ≤ 0)
    ∧ buildUpTo fuel 0 =
        some (Except.error "Cannot create tree with integers zero or lower")
    ∧ buildUpTo fuel (-5) =
        some (Except.error "Cannot create tree with integers zero or lower") := by
  have herr : ∀ h0 : Int, h0 ≤ 0 →
      buildUpTo fuel h0 =
        some (Except.error "Cannot create tree with integers zero or lower") := by
    intro h0 hh
    unfold buildUpTo
    rw [if_pos hh]
  have hok : ∀ e, ¬high ≤ 0 → buildUpTo fuel high ≠ some (Except.error e) := by
    intro e hh hc
    unfold buildUpTo at hc
    rw [if_neg hh] at hc
    cases hpr : processRange collatzNext fuel [(1, [])] 2 (high - 2).toNat with
    | none => rw [hpr] at hc; simp at hc
    | some m0 => rw [hpr] at hc; simp at hc
  refine ⟨⟨?_, herr high⟩, ⟨?_, fun hh => ⟨_, herr high hh⟩⟩,
    herr 0 (by norm_num), herr (-5) (by norm_num)⟩
  · intro hc
    by_contra hh
    exact hok _ hh hc
  · rintro ⟨e, he⟩
    by_contra hh
    exact hok e hh he

/-- Counterexample to claim C7 as stated: at `high = 2` (which is `> 1`)
the returned map stores the empty vector at key 1, because the loop
`for i = 2; i < high` never runs. -/
theorem c7_counterexample :
    (1 : Int) < 2 ∧
    buildUpTo 64 2 = some (Except.ok [((1 : Int), ([] : List Int))]) ∧
    valList [((1 : Int), ([] : List Int))] 1 = [] :=
  ⟨by norm_num, rfl, rfl⟩

/-- Claim C7 amended: in the map returned by `buildUpTo high`, key 1 maps
to a non-empty vector whenever `high > 2` (at `high = 2` it is empty). -/
theorem c7_one_nonempty (fuel : Nat) (high : Int) (m : NodesMap)
    (h : buildUpTo fuel high = some (Except.ok m)) (hh : 2 < high) :
    valList m 1 ≠ [] := by
  obtain ⟨hhigh, hpr⟩ := buildUpTo_ok h
  have h2 : findVal m 2 ≠ none := by
    have hd : (0 : Nat) < (high - 2).toNat := by omega
    have := prg_idx_key collatzNext fuel _ _ _ _ hpr 0 hd
    simpa using this
  have habs : findVal [((1 : Int), ([] : List Int))] 2 = none :=
    (seed_key_iff 2).mpr (by norm_num)
  have hc := prg_count collatzNext fuel _ _ _ _ hpr 2 (collatzNext 2)
  rw [seed_valList, if_pos ⟨h2, habs, rfl⟩] at hc
  have hnext : collatzNext 2 = 1 := by decide
  rw [hnext] at hc
  intro hnil
  rw [hnil] at hc
  simp [countOcc] at hc

/-- Witness for the amended C7 at `high = 3`, `fuel = 64`. -/
theorem c7_one_nonempty_witness :
    valList [((2 : Int), ([] : List Int)), (1, [2])] 1 ≠ [] :=
  c7_one_nonempty 64 3 _ rfl (by norm_num)

/-- Two's-complement wraparound to the 32-bit signed range, used to model
the machine-integer reading of `int` arithmetic in `processValue`
(C++ signed overflow is undefined; the claim under check reads it as
wraparound, which this definition makes explicit). -/
def wrap32 (z : Int) : Int := (z + 2 ^ 31) % 2 ^ 32 - 2 ^ 31

/-- The Collatz step of the source on 32-bit wraparound integers. -/
def next32 (n : Int) : Int :=
  wrap32 (if n % 2 = 0 then n.tdiv 2 else 3 * n + 1)

/-- Instance of `processValue` on the 32-bit wraparound domain. -/
def processValueWrap (fuel : Nat) (m : NodesMap) (v : Int) : Option NodesMap :=
  processValueGen next32 fuel m v

lemma wrap32_mem (z : Int) : -(2 ^ 31) ≤ wrap32 z ∧ wrap32 z < 2 ^ 31 := by
  unfold wrap32
  have h1 : 0 ≤ (z + 2 ^ 31) % 2 ^ 32 := Int.emod_nonneg _ (by norm_num)
  have h2 : (z + 2 ^ 31) % 2 ^ 32 < 2 ^ 32 := Int.emod_lt_of_pos _ (by norm_num)
  omega

/-- The 32-bit signed range as a finite set. -/
def int32Range : Finset Int := Finset.Icc (-(2 ^ 31)) (2 ^ 31 - 1)

/-- Number of 32-bit values not yet present as keys. -/
def missing32 (m : NodesMap) : Nat :=
  (int32Range.filter (fun x => findVal m x = none)).card

lemma missing32_le (m : NodesMap) : missing32 m ≤ 2 ^ 32 := by
  have h1 := Finset.card_filter_le int32Range (fun x => findVal m x = none)
  have h2 : int32Range.card = 2 ^ 32 := by
    unfold int32Range
    rw [Int.card_Icc]
    norm_num
    rfl
  unfold missing32
  omega

lemma missing32_insert {m : NodesMap} {v : Int} (hv1 : -(2 ^ 31) ≤ v)
    (hv2 : v < 2 ^ 31) (habs : findVal m v = none) :
    missing32 ((v, []) :: m) + 1 = missing32 m := by
  unfold missing32
  have hmem : v ∈ int32Range.filter (fun x => findVal m x = none) := by
    rw [Finset.mem_filter]
    exact ⟨Finset.mem_Icc.mpr ⟨hv1, by omega⟩, habs⟩
  have hfe : int32Range.filter (fun x => findVal ((v, []) :: m) x = none) =
      (int32Range.filter (fun x => findVal m x = none)).erase v := by
    ext x
    rw [Finset.mem_erase, Finset.mem_filter, Finset.mem_filter, findVal_cons]
    constructor
    · rintro ⟨hx, hnone⟩
      by_cases hvx : v = x
      · rw [if_pos hvx] at hnone; cases hnone
      · rw [if_neg hvx] at hnone
        exact ⟨fun hy => hvx hy.symm, hx, hnone⟩
    · rintro ⟨hne, hx, hnone⟩
      have hvx : ¬v = x := fun hy => hne hy.symm
      rw [if_neg hvx]
      exact ⟨hx, hnone⟩
  rw [hfe, Finset.card_erase_of_mem hmem]
  have hpos := Finset.card_pos.mpr ⟨v, hmem⟩
  omega

/-- Fuel adequacy: with more fuel than there are absent 32-bit keys, the
memoized procedure cannot run out, because every non-memoized call inserts
its (in-range) argument before recursing. -/
lemma pvw_adequate :
    ∀ (fuel : Nat) (m : NodesMap) (v : Int),
      -(2 ^ 31) ≤ v → v < 2 ^ 31 → missing32 m < fuel →
      processValueWrap fuel m v ≠ none := by
  intro fuel
  induction fuel with
  | zero => intro m v h1 h2 h3; omega
  | succ fuel ih =>
    intro m v h1 h2 h3
    unfold processValueWrap
    rw [processValueGen]
    cases hfv : findVal m v with
    | some l => simp
    | none =>
      have hnext := wrap32_mem (if v % 2 = 0 then v.tdiv 2 else 3 * v + 1)
      have hb1 : -(2 ^ 31) ≤ next32 v := hnext.1
      have hb2 : next32 v < 2 ^ 31 := hnext.2
      have hmiss : missing32 ((v, []) :: m) < fuel := by
        have := missing32_insert h1 h2 hfv
        omega
      have hrec := ih ((v, []) :: m) (next32 v) hb1 hb2 hmiss
      unfold processValueWrap at hrec
      cases hpv : processValueGen next32 fuel ((v, []) :: m) (next32 v) with
      | none => exact absurd hpv hrec
      | some m2 => simp [hpv]

/-- Claim C10: over the finite 32-bit wraparound domain the memoized
`processValue` terminates for every input and every starting map: each
non-memoized call inserts its key before recursing, so a trajectory can
fail to make progress only by reaching an already-present key, and the
domain is finite. `2 ^ 32 + 1` units of fuel always suffice. -/
theorem c10_processValue_terminates (m : NodesMap) (v : Int)
    (h1 : -(2 ^ 31) ≤ v) (h2 : v < 2 ^ 31) :
    processValueWrap (2 ^ 32 + 1) m v ≠ none := by
  apply pvw_adequate _ m v h1 h2
  have := missing32_le m
  omega

/-- Witness for C10 at `v = 5` on the empty map. -/
theorem c10_processValue_terminates_witness :
    processValueWrap (2 ^ 32 + 1) [] 5 ≠ none :=
  c10_processValue_terminates [] 5 (by norm_num) (by norm_num)

/-! ## Layout tree (`class Node` of the source)

A constructed `Node` is its value plus its already-built children (`above_`);
the width member is computed by `calculateWidth`, positions by
`setPositions`.  We model the constructed tree as an inductive, the width
as a function, and position assignment as a function producing a positioned
tree (`PNode`) together with the updated static extrema. -/

inductive Node where
  | mk (value : Int) (above : List Node)

/-- Constant `constexpr const auto nodeHeight = 20;` -/
def nodeHeight : Int := 20

/-- Constant `constexpr const auto nodeSpacing = 10;` -/
def nodeSpacing : Int := 10

/-- Translation of `Node::textWidth`: 8 pixels per character of the decimal rendering. -/
def textWidth (v : Int) : Int := 8 * ((toString v).length : Int)

mutual
/-- Translation of `Node::calculateWidth`: leaf width is the text width; otherwise
`(size - 1) * nodeSpacing` plus the children's widths, raised to the text
width if that is larger. -/
def calculateWidth : Node → Int
  | .mk v above =>
    if above.isEmpty then textWidth v
    else
      let w := ((above.length : Int) - 1) * nodeSpacing + widthSum above
      if textWidth v > w then textWidth v else w
/-- The loop `for (Node &x : above_) width += x.calculateWidth();`. -/
def widthSum : List Node → Int
  | [] => 0
  | c :: cs => calculateWidth c + widthSum cs
end

/-- Structural induction for the nested inductive `Node`. -/
theorem node_induction {P : Node → Prop}
    (h : ∀ v above, (∀ c, c ∈ above → P c) → P (.mk v above)) :
    ∀ n, P n := by
  have hsize : ∀ (k : Nat) (n : Node), sizeOf n ≤ k → P n := by
    intro k
    induction k with
    | zero =>
      intro n hn
      cases n with
      | mk v above =>
        exfalso
        simp at hn
    | succ k ih =>
      intro n hn
      cases n with
      | mk v above =>
        apply h
        intro c hc
        apply ih
        have h1 : sizeOf c < sizeOf above := List.sizeOf_lt_of_mem hc
        simp at hn
        omega
  intro n
  exact hsize (sizeOf n) n le_rfl

lemma textWidth_nonneg (v : Int) : 0 ≤ textWidth v :=
  mul_nonneg (by norm_num) (Int.natCast_nonneg _)

lemma widthSum_nonneg_of (l : List Node)
    (h : ∀ c ∈ l, 0 ≤ calculateWidth c) : 0 ≤ widthSum l := by
  induction l with
  | nil => rw [widthSum]
  | cons c cs ih =>
    rw [widthSum]
    have h1 := h c (List.mem_cons_self _ _)
    have h2 := ih fun c hc => h c (List.mem_cons_of_mem _ hc)
    omega

lemma calculateWidth_nonneg : ∀ n, 0 ≤ calculateWidth n := by
  apply node_induction
  intro v above ih
  rw [calculateWidth]
  by_cases he : above.isEmpty
  · rw [if_pos he]; exact textWidth_nonneg v
  · rw [if_neg he]
    show 0 ≤ if textWidth v >
        ((above.length : Int) - 1) * nodeSpacing + widthSum above
      then textWidth v
      else ((above.length : Int) - 1) * nodeSpacing + widthSum above
    have hlen : 1 ≤ above.length := by
      cases above with
      | nil => simp at he
      | cons c cs => simp
    have hws : 0 ≤ widthSum above := widthSum_nonneg_of above ih
    have htw := textWidth_nonneg v
    have hlenI : (1 : Int) ≤ (above.length : Int) := by exact_mod_cast hlen
    by_cases hgt : textWidth v >
        ((above.length : Int) - 1) * nodeSpacing + widthSum above
    · rw [if_pos hgt]; exact htw
    · rw [if_neg hgt]
      exact add_nonneg
        (mul_nonneg (by omega) (by decide)) hws

lemma widthSum_nonneg (l : List Node) : 0 ≤ widthSum l :=
  widthSum_nonneg_of l fun c _ => calculateWidth_nonneg c

/-- Claim C4: the computed width is `textWidth value` for a childless node
and otherwise `max (textWidth value) (sum of child widths + spacing * (n-1))`;
in particular it is at least the text width, and at least the children term
when children exist. -/
theorem c4_width_formula (v : Int) (above : List Node) :
    (calculateWidth (Node.mk v above) =
      if above.isEmpty then textWidth v
      else max (textWidth v)
        (widthSum above + nodeSpacing * ((above.length : Int) - 1)))
    ∧ textWidth v ≤ calculateWidth (Node.mk v above)
    ∧ (above = [] ∨
        widthSum above + nodeSpacing * ((above.length : Int) - 1) ≤
          calculateWidth (Node.mk v above)) := by
  by_cases he : above.isEmpty
  · have he' : above = [] := by
      cases above with
      | nil => rfl
      | cons c cs => simp [List.isEmpty] at he
    subst he'
    refine ⟨?_, ?_, Or.inl rfl⟩
    · rw [calculateWidth]; rfl
    · rw [calculateWidth]
      show textWidth v ≤ textWidth v
      exact le_refl _
  · have hcomm : ((above.length : Int) - 1) * nodeSpacing + widthSum above =
        widthSum above + nodeSpacing * ((above.length : Int) - 1) := by ring
    have hmain : calculateWidth (Node.mk v above) =
        max (textWidth v)
          (widthSum above + nodeSpacing * ((above.length : Int) - 1)) := by
      rw [calculateWidth, if_neg he]
      show (if textWidth v >
          ((above.length : Int) - 1) * nodeSpacing + widthSum above
        then textWidth v
        else ((above.length : Int) - 1) * nodeSpacing + widthSum above) = _
      rcases le_or_lt (textWidth v)
          (((above.length : Int) - 1) * nodeSpacing + widthSum above) with
        hle | hlt
      · rw [if_neg (not_lt.mpr hle),
          max_eq_right (by rw [← hcomm]; exact hle)]
        exact hcomm
      · rw [if_pos hlt, max_eq_left (by rw [← hcomm]; exact le_of_lt hlt)]
    refine ⟨?_, ?_, Or.inr ?_⟩
    · rw [hmain, if_neg he]
    · rw [hmain]; exact le_max_left _ _
    · rw [hmain]; exact le_max_right _ _

/-- The two static extrema `Node::highestX_` (most positive X) and
`Node::highestY_` (most negative Y), threaded through position assignment. -/
structure Extrema where
  highestX : Int
  highestY : Int
deriving DecidableEq

/-- A positioned node: value, assigned `positionX`/`positionY`, the width
member, and the positioned children. -/
inductive PNode where
  | mk (value : Int) (x : Int) (y : Int) (width : Int) (above : List PNode)

def PNode.value : PNode → Int
  | .mk v _ _ _ _ => v

def PNode.x : PNode → Int
  | .mk _ x _ _ _ => x

def PNode.y : PNode → Int
  | .mk _ _ y _ _ => y

def PNode.width : PNode → Int
  | .mk _ _ _ w _ => w

def PNode.above : PNode → List PNode
  | .mk _ _ _ _ cs => cs

def defNode : Node := .mk 0 []

def defPNode : PNode := .mk 0 0 0 0 []

mutual
/-- Translation of `Node::setPositions(x, y)`: record the node's own position, then place
the children left to right starting from offset `-width / 2`, updating the
extrema with each child's position before recursing into it. -/
def setPositions : Node → Int → Int → Extrema → PNode × Extrema
  | .mk v above, x, y, ext =>
    let r := placeChildren above x y
      (Int.tdiv (-(calculateWidth (.mk v above))) 2) ext
    (.mk v x y (calculateWidth (.mk v above)) r.1, r.2)
/-- The loop body of `setPositions`: for each child, `posX = x + offsetX +
child.width / 2`, `posY = y - nodeSpacing - nodeHeight`, advance the offset
by `child.width + nodeSpacing`, update the extrema, recurse. -/
def placeChildren : List Node → Int → Int → Int → Extrema → List PNode × Extrema
  | [], _, _, _, ext => ([], ext)
  | c :: cs, x, y, offsetX, ext =>
    let posX := x + offsetX + (calculateWidth c).tdiv 2
    let posY := y - nodeSpacing - nodeHeight
    let r1 := setPositions c posX posY
      ⟨max ext.highestX posX, min ext.highestY posY⟩
    let r2 := placeChildren cs x y (offsetX + calculateWidth c + nodeSpacing) r1.2
    (r1.1 :: r2.1, r2.2)
end

/-- The horizontal offset accumulated before child `i`:
0 for the first child, advanced by `width + nodeSpacing` per child. -/
def offBefore : List Node → Nat → Int
  | _, 0 => 0
  | [], _ + 1 => 0
  | c :: cs, i + 1 => calculateWidth c + nodeSpacing + offBefore cs i

lemma setPositions_mk (v : Int) (above : List Node) (x y : Int)
    (ext : Extrema) :
    setPositions (.mk v above) x y ext =
      ((.mk v x y (calculateWidth (.mk v above))
          (placeChildren above x y
            (Int.tdiv (-(calculateWidth (.mk v above))) 2) ext).1),
        (placeChildren above x y
          (Int.tdiv (-(calculateWidth (.mk v above))) 2) ext).2) := rfl

lemma placeChildren_cons (c : Node) (cs : List Node) (x y offsetX : Int)
    (ext : Extrema) :
    placeChildren (c :: cs) x y offsetX ext =
      ((setPositions c (x + offsetX + (calculateWidth c).tdiv 2)
          (y - nodeSpacing - nodeHeight)
          ⟨max ext.highestX (x + offsetX + (calculateWidth c).tdiv 2),
            min ext.highestY (y - nodeSpacing - nodeHeight)⟩).1 ::
        (placeChildren cs x y (offsetX + calculateWidth c + nodeSpacing)
          (setPositions c (x + offsetX + (calculateWidth c).tdiv 2)
            (y - nodeSpacing - nodeHeight)
            ⟨max ext.highestX (x + offsetX + (calculateWidth c).tdiv 2),
              min ext.highestY (y - nodeSpacing - nodeHeight)⟩).2).1,
        (placeChildren cs x y (offsetX + calculateWidth c + nodeSpacing)
          (setPositions c (x + offsetX + (calculateWidth c).tdiv 2)
            (y - nodeSpacing - nodeHeight)
            ⟨max ext.highestX (x + offsetX + (calculateWidth c).tdiv 2),
              min ext.highestY (y - nodeSpacing - nodeHeight)⟩).2).2) := rfl

lemma setPositions_fst (n : Node) (x y : Int) (ext : Extrema) :
    (setPositions n x y ext).1 =
      .mk n.1 x y (calculateWidth n)
        (placeChildren n.2 x y
          (Int.tdiv (-(calculateWidth n)) 2) ext).1 := by
  cases n with
  | mk v above => rfl

lemma setPositions_x (n : Node) (x y : Int) (ext : Extrema) :
    ((setPositions n x y ext).1).x = x := by
  cases n with
  | mk v above => rfl

lemma setPositions_y (n : Node) (x y : Int) (ext : Extrema) :
    ((setPositions n x y ext).1).y = y := by
  cases n with
  | mk v above => rfl

lemma setPositions_width (n : Node) (x y : Int) (ext : Extrema) :
    ((setPositions n x y ext).1).width = calculateWidth n := by
  cases n with
  | mk v above => rfl

lemma setPositions_above (v : Int) (above : List Node) (x y : Int)
    (ext : Extrema) :
    ((setPositions (.mk v above) x y ext).1).above =
      (placeChildren above x y
        (Int.tdiv (-(calculateWidth (.mk v above))) 2) ext).1 := rfl

lemma placeChildren_length :
    ∀ (cs : List Node) (x y offsetX : Int) (ext : Extrema),
      (placeChildren cs x y offsetX ext).1.length = cs.length := by
  intro cs
  induction cs with
  | nil => intro x y offsetX ext; rfl
  | cons c cs ih =>
    intro x y offsetX ext
    rw [placeChildren_cons]
    simp only [List.length_cons, ih]

/-- Characterization of the `i`-th placed child: it is the recursive
placement of the `i`-th source child at the offset-formula position, one
row lower, starting from some intermediate extrema state. -/
lemma placeChildren_getD :
    ∀ (cs : List Node) (x y offsetX : Int) (ext : Extrema) (i : Nat),
      i < cs.length →
      ∃ e' : Extrema,
        (placeChildren cs x y offsetX ext).1.getD i defPNode =
          (setPositions (cs.getD i defNode)
            (x + offsetX + offBefore cs i +
              (calculateWidth (cs.getD i defNode)).tdiv 2)
            (y - nodeSpacing - nodeHeight) e').1 := by
  intro cs
  induction cs with
  | nil => intro x y offsetX ext i hi; simp at hi
  | cons c cs ih =>
    intro x y offsetX ext i hi
    rw [placeChildren_cons]
    cases i with
    | zero =>
      refine ⟨⟨max ext.highestX (x + offsetX + (calculateWidth c).tdiv 2),
        min ext.highestY (y - nodeSpacing - nodeHeight)⟩, ?_⟩
      show (setPositions c (x + offsetX + (calculateWidth c).tdiv 2) _ _).1 = _
      have h0 : offBefore (c :: cs) 0 = 0 := rfl
      have hg : (c :: cs).getD 0 defNode = c := rfl
      rw [h0, hg]
      norm_num
    | succ i' =>
      have hi' : i' < cs.length := by simpa using hi
      obtain ⟨e', he'⟩ := ih x y (offsetX + calculateWidth c + nodeSpacing)
        (setPositions c (x + offsetX + (calculateWidth c).tdiv 2)
          (y - nodeSpacing - nodeHeight)
          ⟨max ext.highestX (x + offsetX + (calculateWidth c).tdiv 2),
            min ext.highestY (y - nodeSpacing - nodeHeight)⟩).2 i' hi'
      refine ⟨e', ?_⟩
      show (placeChildren cs x y (offsetX + calculateWidth c + nodeSpacing)
          _).1.getD i' defPNode = _
      rw [he']
      have hoff : offBefore (c :: cs) (i' + 1) =
          calculateWidth c + nodeSpacing + offBefore cs i' := rfl
      have hg : (c :: cs).getD (i' + 1) defNode = cs.getD i' defNode := rfl
      rw [hoff, hg]
      ring_nf

mutual
/-- All nodes of a positioned tree, root first (the generic depth-first
walk of `Node::draw`). -/
def allPNodes : PNode → List PNode
  | .mk v x y w cs => .mk v x y w cs :: allPNodesList cs
def allPNodesList : List PNode → List PNode
  | [] => []
  | p :: ps => allPNodes p ++ allPNodesList ps
end

mutual
/-- The `posX` values recorded into `highestX_`, in update order: for each
child, its own `posX` first, then its subtree's, then the next sibling's. -/
def childXs : PNode → List Int
  | .mk _ _ _ _ cs => childXsList cs
def childXsList : List PNode → List Int
  | [] => []
  | p :: ps => p.x :: (childXs p ++ childXsList ps)
end

mutual
/-- The `posY` values recorded into `highestY_`, in update order. -/
def childYs : PNode → List Int
  | .mk _ _ _ _ cs => childYsList cs
def childYsList : List PNode → List Int
  | [] => []
  | p :: ps => p.y :: (childYs p ++ childYsList ps)
end

lemma self_mem_allPNodes (p : PNode) : p ∈ allPNodes p := by
  cases p with
  | mk v x y w cs => exact List.mem_cons_self _ _

lemma mem_allPNodesList {p : PNode} :
    ∀ {ps : List PNode}, p ∈ allPNodesList ps ↔ ∃ q ∈ ps, p ∈ allPNodes q := by
  intro ps
  induction ps with
  | nil => simp [allPNodesList]
  | cons q qs ih => simp [allPNodesList, List.mem_append, ih]

/-- Every element of the output list of `placeChildren` is itself a
`setPositions` output of one of the source children. -/
lemma placeChildren_mem :
    ∀ (cs : List Node) (x y offsetX : Int) (ext : Extrema) (q : PNode),
      q ∈ (placeChildren cs x y offsetX ext).1 →
      ∃ c ∈ cs, ∃ (X Y : Int) (E : Extrema), q = (setPositions c X Y E).1 := by
  intro cs
  induction cs with
  | nil => intro x y offsetX ext q hq; simp [placeChildren] at hq
  | cons c cs ih =>
    intro x y offsetX ext q hq
    rw [placeChildren_cons] at hq
    rcases List.mem_cons.mp hq with h1 | h2
    · exact ⟨c, List.mem_cons_self _ _, _, _, _, h1⟩
    · obtain ⟨c', hc', X, Y, E, hq'⟩ := ih _ _ _ _ q h2
      exact ⟨c', List.mem_cons_of_mem _ hc', X, Y, E, hq'⟩

/-- Every node of a positioned tree is itself a `setPositions` output of
some source subtree: positions inside the tree are canonical. -/
lemma allPNodes_setPositions :
    ∀ (n : Node) (x y : Int) (e : Extrema) (p : PNode),
      p ∈ allPNodes (setPositions n x y e).1 →
      ∃ (m : Node) (x' y' : Int) (e' : Extrema),
        p = (setPositions m x' y' e').1 := by
  apply node_induction
    (P := fun n => ∀ (x y : Int) (e : Extrema) (p : PNode),
      p ∈ allPNodes (setPositions n x y e).1 →
      ∃ (m : Node) (x' y' : Int) (e' : Extrema),
        p = (setPositions m x' y' e').1)
  intro v above ih x y e p hp
  rw [setPositions_mk] at hp
  have hall : allPNodes (.mk v x y (calculateWidth (.mk v above))
      (placeChildren above x y
        (Int.tdiv (-(calculateWidth (.mk v above))) 2) e).1) =
      (.mk v x y (calculateWidth (.mk v above))
        (placeChildren above x y
          (Int.tdiv (-(calculateWidth (.mk v above))) 2) e).1) ::
      allPNodesList (placeChildren above x y
        (Int.tdiv (-(calculateWidth (.mk v above))) 2) e).1 := rfl
  rw [hall] at hp
  rcases List.mem_cons.mp hp with h1 | h2
  · refine ⟨.mk v above, x, y, e, ?_⟩
    rw [h1, setPositions_mk]
  · rw [mem_allPNodesList] at h2
    obtain ⟨q, hq, hpq⟩ := h2
    obtain ⟨c, hc, X, Y, E, hq'⟩ := placeChildren_mem above _ _ _ _ q hq
    subst hq'
    exact ih c hc X Y E p hpq

lemma offBefore_zero (cs : List Node) : offBefore cs 0 = 0 := by
  cases cs <;> rfl

lemma offBefore_nonneg : ∀ (cs : List Node) (i : Nat), 0 ≤ offBefore cs i := by
  intro cs
  induction cs with
  | nil => intro i; cases i <;> exact le_refl 0
  | cons c cs ih =>
    intro i
    cases i with
    | zero => exact le_refl 0
    | succ i' =>
      have h1 := calculateWidth_nonneg c
      have h2 := ih i'
      have h3 : offBefore (c :: cs) (i' + 1) =
          calculateWidth c + nodeSpacing + offBefore cs i' := rfl
      have hs : (0 : Int) ≤ nodeSpacing := by decide
      rw [h3]
      omega

lemma offBefore_gap :
    ∀ (cs : List Node) (i j : Nat), i < j → j ≤ cs.length →
      offBefore cs i + calculateWidth (cs.getD i defNode) + nodeSpacing ≤
        offBefore cs j := by
  intro cs
  induction cs with
  | nil => intro i j hij hj; simp at hj; omega
  | cons c cs ih =>
    intro i j hij hj
    cases j with
    | zero => omega
    | succ j' =>
      cases i with
      | zero =>
        have h1 : offBefore (c :: cs) 0 = 0 := rfl
        have h2 : (c :: cs).getD 0 defNode = c := rfl
        have h3 : offBefore (c :: cs) (j' + 1) =
            calculateWidth c + nodeSpacing + offBefore cs j' := rfl
        rw [h1, h2, h3]
        have := offBefore_nonneg cs j'
        omega
      | succ i' =>
        have h1 : offBefore (c :: cs) (i' + 1) =
            calculateWidth c + nodeSpacing + offBefore cs i' := rfl
        have h2 : (c :: cs).getD (i' + 1) defNode = cs.getD i' defNode := rfl
        have h3 : offBefore (c :: cs) (j' + 1) =
            calculateWidth c + nodeSpacing + offBefore cs j' := rfl
        rw [h1, h2, h3]
        have := ih i' j' (by omega) (by simpa using hj)
        omega

lemma offBefore_succ :
    ∀ (cs : List Node) (i : Nat), i < cs.length →
      offBefore cs (i + 1) =
        offBefore cs i + calculateWidth (cs.getD i defNode) + nodeSpacing := by
  intro cs
  induction cs with
  | nil => intro i hi; simp at hi
  | cons c cs ih =>
    intro i hi
    cases i with
    | zero =>
      show calculateWidth c + nodeSpacing + offBefore cs 0 = _
      have h1 : offBefore (c :: cs) 0 = 0 := rfl
      have h2 : (c :: cs).getD 0 defNode = c := rfl
      rw [h1, h2, offBefore_zero]
      ring
    | succ i' =>
      have hi' : i' < cs.length := by simpa using hi
      show calculateWidth c + nodeSpacing + offBefore cs (i' + 1) = _
      rw [ih i' hi']
      have h1 : offBefore (c :: cs) (i' + 1) =
          calculateWidth c + nodeSpacing + offBefore cs i' := rfl
      have h2 : (c :: cs).getD (i' + 1) defNode = cs.getD i' defNode := rfl
      rw [h1, h2]
      ring

/-- Core separation arithmetic: two children at offsets `di < dj` with the
placement formula are at least `(wi + wj) / 2` apart (truncating division),
because the reserved spans plus the fixed spacing separate them. -/
lemma sibling_sep {wi wj di dj : Int} (hwi : 0 ≤ wi) (hwj : 0 ≤ wj)
    (hgap : di + wi + nodeSpacing ≤ dj) (base : Int) :
    (wi + wj).tdiv 2 ≤
      |(base + di + wi.tdiv 2) - (base + dj + wj.tdiv 2)| := by
  have h1 : wi.tdiv 2 = wi / 2 := Int.tdiv_eq_ediv hwi (by norm_num)
  have h2 : wj.tdiv 2 = wj / 2 := Int.tdiv_eq_ediv hwj (by norm_num)
  have h3 : (wi + wj).tdiv 2 = (wi + wj) / 2 :=
    Int.tdiv_eq_ediv (by omega) (by norm_num)
  rw [h1, h2, h3]
  have hs : nodeSpacing = 10 := rfl
  rw [hs] at hgap
  have hA : (wi + wj) / 2 ≤ (base + dj + wj / 2) - (base + di + wi / 2) := by
    omega
  have hB : (base + dj + wj / 2) - (base + di + wi / 2) ≤
      |(base + di + wi / 2) - (base + dj + wj / 2)| := by
    rw [abs_sub_comm]
    exact le_abs_self _
  omega

/-- Claim C2: after position assignment on any tree, two distinct siblings
anywhere in the positioned tree are horizontally at least half the sum of
their widths apart (with the integer division the code uses), so siblings
never horizontally overlap. -/
theorem c2_sibling_no_overlap (root : Node) (x y : Int) (e : Extrema)
    (p : PNode) (hp : p ∈ allPNodes (setPositions root x y e).1)
    (ci cj : PNode) (hci : ci ∈ p.above) (hcj : cj ∈ p.above)
    (hne : ci ≠ cj) :
    (ci.width + cj.width).tdiv 2 ≤ |ci.x - cj.x| := by
  obtain ⟨m, x', y', e', hpeq⟩ := allPNodes_setPositions root x y e p hp
  subst hpeq
  cases m with
  | mk v above =>
    rw [setPositions_above] at hci hcj
    obtain ⟨i, hilt, hgi⟩ := List.mem_iff_getElem.mp hci
    obtain ⟨j, hjlt, hgj⟩ := List.mem_iff_getElem.mp hcj
    have hij : i ≠ j := by
      rintro rfl
      exact hne (hgi.symm.trans hgj)
    have hlen := placeChildren_length above x' y'
      (Int.tdiv (-(calculateWidth (Node.mk v above))) 2) e'
    have hiA : i < above.length := by omega
    have hjA : j < above.length := by omega
    have hgdi : (placeChildren above x' y'
        (Int.tdiv (-(calculateWidth (Node.mk v above))) 2) e').1.getD i
          defPNode = ci := by
      rw [List.getD_eq_getElem?_getD, List.getElem?_eq_getElem hilt]
      simpa using hgi
    have hgdj : (placeChildren above x' y'
        (Int.tdiv (-(calculateWidth (Node.mk v above))) 2) e').1.getD j
          defPNode = cj := by
      rw [List.getD_eq_getElem?_getD, List.getElem?_eq_getElem hjlt]
      simpa using hgj
    obtain ⟨ei, hei⟩ := placeChildren_getD above x' y'
      (Int.tdiv (-(calculateWidth (Node.mk v above))) 2) e' i hiA
    obtain ⟨ej, hej⟩ := placeChildren_getD above x' y'
      (Int.tdiv (-(calculateWidth (Node.mk v above))) 2) e' j hjA
    rw [hgdi] at hei
    rw [hgdj] at hej
    have hxi : ci.x = x' + Int.tdiv (-(calculateWidth (Node.mk v above))) 2 +
        offBefore above i +
        (calculateWidth (above.getD i defNode)).tdiv 2 := by
      rw [hei, setPositions_x]
    have hxj : cj.x = x' + Int.tdiv (-(calculateWidth (Node.mk v above))) 2 +
        offBefore above j +
        (calculateWidth (above.getD j defNode)).tdiv 2 := by
      rw [hej, setPositions_x]
    have hwi : ci.width = calculateWidth (above.getD i defNode) := by
      rw [hei, setPositions_width]
    have hwj : cj.width = calculateWidth (above.getD j defNode) := by
      rw [hej, setPositions_width]
    rw [hxi, hxj, hwi, hwj]
    rcases Nat.lt_or_ge i j with hlt | hge
    · have hgap := offBefore_gap above i j hlt (by omega)
      exact sibling_sep (calculateWidth_nonneg _) (calculateWidth_nonneg _)
        hgap (x' + Int.tdiv (-(calculateWidth (Node.mk v above))) 2)
    · have hlt' : j < i := by omega
      have hgap := offBefore_gap above j i hlt' (by omega)
      rw [abs_sub_comm, add_comm]
      exact sibling_sep (calculateWidth_nonneg _) (calculateWidth_nonneg _)
        hgap (x' + Int.tdiv (-(calculateWidth (Node.mk v above))) 2)

lemma foldl_max_cons_append (a x : Int) (l1 l2 : List Int) :
    List.foldl max a (x :: (l1 ++ l2)) =
      List.foldl max (List.foldl max (max a x) l1) l2 := by
  rw [List.foldl_cons, List.foldl_append]

lemma foldl_min_cons_append (a x : Int) (l1 l2 : List Int) :
    List.foldl min a (x :: (l1 ++ l2)) =
      List.foldl min (List.foldl min (min a x) l1) l2 := by
  rw [List.foldl_cons, List.foldl_append]

/-- The extrema returned by `setPositions` are the sequential max/min
updates over every recorded child position, in update order. -/
def ExtremaSpec (n : Node) : Prop :=
  ∀ (x y : Int) (e : Extrema),
    (setPositions n x y e).2 =
      ⟨List.foldl max e.highestX (childXs (setPositions n x y e).1),
        List.foldl min e.highestY (childYs (setPositions n x y e).1)⟩

lemma placeChildren_extrema :
    ∀ (cs : List Node), (∀ c ∈ cs, ExtremaSpec c) →
      ∀ (x y offsetX : Int) (e : Extrema),
        (placeChildren cs x y offsetX e).2 =
          ⟨List.foldl max e.highestX
              (childXsList (placeChildren cs x y offsetX e).1),
            List.foldl min e.highestY
              (childYsList (placeChildren cs x y offsetX e).1)⟩ := by
  intro cs
  induction cs with
  | nil => intro hcs x y offsetX e; rfl
  | cons c cs ih =>
    intro hcs x y offsetX e
    have hc : ExtremaSpec c := hcs c (List.mem_cons_self _ _)
    have hrest := ih (fun c' hc' => hcs c' (List.mem_cons_of_mem _ hc'))
    rw [placeChildren_cons]
    rw [hrest x y (offsetX + calculateWidth c + nodeSpacing)
      (setPositions c (x + offsetX + (calculateWidth c).tdiv 2)
        (y - nodeSpacing - nodeHeight)
        ⟨max e.highestX (x + offsetX + (calculateWidth c).tdiv 2),
          min e.highestY (y - nodeSpacing - nodeHeight)⟩).2]
    have hc' := hc (x + offsetX + (calculateWidth c).tdiv 2)
      (y - nodeSpacing - nodeHeight)
      ⟨max e.highestX (x + offsetX + (calculateWidth c).tdiv 2),
        min e.highestY (y - nodeSpacing - nodeHeight)⟩
    have hposx := setPositions_x c (x + offsetX + (calculateWidth c).tdiv 2)
      (y - nodeSpacing - nodeHeight)
      ⟨max e.highestX (x + offsetX + (calculateWidth c).tdiv 2),
        min e.highestY (y - nodeSpacing - nodeHeight)⟩
    have hposy := setPositions_y c (x + offsetX + (calculateWidth c).tdiv 2)
      (y - nodeSpacing - nodeHeight)
      ⟨max e.highestX (x + offsetX + (calculateWidth c).tdiv 2),
        min e.highestY (y - nodeSpacing - nodeHeight)⟩
    congr 1
    · rw [show ∀ (p : PNode) (ps : List PNode),
          childXsList (p :: ps) = p.x :: (childXs p ++ childXsList ps)
        from fun p ps => rfl]
      rw [foldl_max_cons_append, hposx, hc']
    · rw [show ∀ (p : PNode) (ps : List PNode),
          childYsList (p :: ps) = p.y :: (childYs p ++ childYsList ps)
        from fun p ps => rfl]
      rw [foldl_min_cons_append, hposy, hc']

lemma setPositions_extrema : ∀ n, ExtremaSpec n := by
  apply node_induction
  intro v above ih x y e
  have h := placeChildren_extrema above ih x y
    (Int.tdiv (-(calculateWidth (.mk v above))) 2) e
  rw [setPositions_mk]
  exact h

/-- Claim C3: a node placed at `(x, y)` places child `i` at
`childX = x + offset + wᵢ/2` and `childY = y - (rowHeight + spacing)`, with
the offset starting at `-width/2` and advancing by `wᵢ + spacing` per child
(`offBefore` is the accumulated advance), and the returned extrema are the
running max of the recorded child x's and min of the recorded child y's. -/
theorem c3_child_placement (v : Int) (above : List Node) (x y : Int)
    (e : Extrema) (i : Nat) (hi : i < above.length) :
    ((setPositions (Node.mk v above) x y e).1.above.length = above.length)
    ∧ ((setPositions (Node.mk v above) x y e).1.above.getD i defPNode).x =
        x + (Int.tdiv (-(calculateWidth (Node.mk v above))) 2 +
          offBefore above i) +
          (calculateWidth (above.getD i defNode)).tdiv 2
    ∧ ((setPositions (Node.mk v above) x y e).1.above.getD i defPNode).y =
        y - (nodeHeight + nodeSpacing)
    ∧ ((setPositions (Node.mk v above) x y e).1.above.getD i defPNode).width =
        calculateWidth (above.getD i defNode)
    ∧ offBefore above 0 = 0
    ∧ offBefore above (i + 1) =
        offBefore above i +
          (calculateWidth (above.getD i defNode) + nodeSpacing)
    ∧ (setPositions (Node.mk v above) x y e).2 =
        ⟨List.foldl max e.highestX
            (childXs (setPositions (Node.mk v above) x y e).1),
          List.foldl min e.highestY
            (childYs (setPositions (Node.mk v above) x y e).1)⟩ := by
  obtain ⟨ei, hei⟩ := placeChildren_getD above x y
    (Int.tdiv (-(calculateWidth (Node.mk v above))) 2) e i hi
  have habove := setPositions_above v above x y e
  refine ⟨?_, ?_, ?_, ?_, offBefore_zero above, ?_,
    setPositions_extrema _ x y e⟩
  · rw [habove, placeChildren_length]
  · rw [habove, hei, setPositions_x]; ring
  · rw [habove, hei, setPositions_y]; ring
  · rw [habove, hei, setPositions_width]
  · rw [offBefore_succ above i hi]; ring

/-- The concrete layout scenario of the spec: root value 1 with two
single-digit children (widths 8 each). -/
def demoTree : Node := Node.mk 1 [Node.mk 2 [], Node.mk 4 []]

/-- Witness for C3 on `demoTree` at child index 1. -/
theorem c3_child_placement_witness :
    ((setPositions (Node.mk 1 [Node.mk 2 [], Node.mk 4 []]) 0 0
        ⟨0, 0⟩).1.above.length = [Node.mk 2 [], Node.mk 4 []].length)
    ∧ ((setPositions (Node.mk 1 [Node.mk 2 [], Node.mk 4 []]) 0 0
        ⟨0, 0⟩).1.above.getD 1 defPNode).x =
        0 + (Int.tdiv
            (-(calculateWidth (Node.mk 1 [Node.mk 2 [], Node.mk 4 []]))) 2 +
          offBefore [Node.mk 2 [], Node.mk 4 []] 1) +
          (calculateWidth
            ([Node.mk 2 [], Node.mk 4 []].getD 1 defNode)).tdiv 2
    ∧ ((setPositions (Node.mk 1 [Node.mk 2 [], Node.mk 4 []]) 0 0
        ⟨0, 0⟩).1.above.getD 1 defPNode).y = 0 - (nodeHeight + nodeSpacing)
    ∧ ((setPositions (Node.mk 1 [Node.mk 2 [], Node.mk 4 []]) 0 0
        ⟨0, 0⟩).1.above.getD 1 defPNode).width =
        calculateWidth ([Node.mk 2 [], Node.mk 4 []].getD 1 defNode)
    ∧ offBefore [Node.mk 2 [], Node.mk 4 []] 0 = 0
    ∧ offBefore [Node.mk 2 [], Node.mk 4 []] (1 + 1) =
        offBefore [Node.mk 2 [], Node.mk 4 []] 1 +
          (calculateWidth ([Node.mk 2 [], Node.mk 4 []].getD 1 defNode) +
            nodeSpacing)
    ∧ (setPositions (Node.mk 1 [Node.mk 2 [], Node.mk 4 []]) 0 0 ⟨0, 0⟩).2 =
        ⟨List.foldl max (0 : Int)
            (childXs (setPositions (Node.mk 1 [Node.mk 2 [], Node.mk 4 []])
              0 0 ⟨0, 0⟩).1),
          List.foldl min (0 : Int)
            (childYs (setPositions (Node.mk 1 [Node.mk 2 [], Node.mk 4 []])
              0 0 ⟨0, 0⟩).1)⟩ :=
  c3_child_placement 1 [Node.mk 2 [], Node.mk 4 []] 0 0 ⟨0, 0⟩ 1 (by decide)

/-- Witness for C2 on `demoTree`: the two placed children have widths 8 and
x-positions -9 and 9, and `(8 + 8).tdiv 2 = 8 ≤ 18`. -/
theorem c2_sibling_no_overlap_witness :
    ((PNode.mk 2 (-9) (-30) 8 []).width +
        (PNode.mk 4 9 (-30) 8 []).width).tdiv 2 ≤
      |(PNode.mk 2 (-9) (-30) 8 []).x - (PNode.mk 4 9 (-30) 8 []).x| :=
  c2_sibling_no_overlap demoTree 0 0 ⟨0, 0⟩
    (setPositions demoTree 0 0 ⟨0, 0⟩).1
    (self_mem_allPNodes _)
    (PNode.mk 2 (-9) (-30) 8 []) (PNode.mk 4 9 (-30) 8 [])
    (List.mem_cons_self _ _)
    (List.mem_cons_of_mem _ (List.mem_cons_self _ _))
    (by intro h; simp at h)

/-- Counterexample to claim C8: with the root of `demoTree` placed at
x = 0, the computed width is 26 and the first child sits at x = -13 + 4 =
-9, but the second child is placed at x = 9, not at 13 as the claim
computes (the claim adds the full width 8 of the first child to a position
that already includes half of it). -/
theorem c8_counterexample :
    calculateWidth demoTree = 26 ∧
    ((setPositions demoTree 0 0 ⟨0, 0⟩).1.above.getD 0 defPNode).x = -9 ∧
    ((setPositions demoTree 0 0 ⟨0, 0⟩).1.above.getD 1 defPNode).x = 9 ∧
    ((setPositions demoTree 0 0 ⟨0, 0⟩).1.above.getD 1 defPNode).x ≠ 13 :=
  ⟨by decide, by decide, by decide, by decide⟩

/-- Claim C8 amended: root width is max(8, 8+8+10) = 26 and with the root
at x = 0 the children are placed at -13 + 4 = -9 and at
-9 + 4 + 10 + 4 = 9 (half the first width, the spacing, then half the
second width beyond the first child). -/
theorem c8_amended_scenario :
    calculateWidth demoTree = 26 ∧
    ((setPositions demoTree 0 0 ⟨0, 0⟩).1.above.getD 0 defPNode).x =
      -13 + 4 ∧
    ((setPositions demoTree 0 0 ⟨0, 0⟩).1.above.getD 1 defPNode).x =
      -9 + 4 + 10 + 4 :=
  ⟨by decide, by decide, by decide⟩

mutual
/-- Translation of `Node::Node(int value, const NodesMap &nodes)`: look the value up,
throw `"Invalid data generated"` when absent, otherwise recursively build
one child per entry of the stored vector, in order.  `fuel` bounds the
recursion depth (the C++ recursion has no structural measure); `none` is
fuel exhaustion. -/
def buildNode : Nat → Int → NodesMap → Option (Except String Node)
  | 0, _, _ => none
  | fuel + 1, value, nodes =>
    match findVal nodes value with
    | none => some (Except.error "Invalid data generated")
    | some above =>
      match buildNodeList fuel above nodes with
      | none => none
      | some (Except.error e) => some (Except.error e)
      | some (Except.ok children) => some (Except.ok (Node.mk value children))
/-- The loop `for (const auto &v : above) above_.push_back(Node{v, nodes})`,
with errors propagating out of the constructor. -/
def buildNodeList : Nat → List Int → NodesMap → Option (Except String (List Node))
  | 0, _, _ => none
  | _ + 1, [], _ => some (Except.ok [])
  | fuel + 1, v :: vs, nodes =>
    match buildNode fuel v nodes with
    | none => none
    | some (Except.error e) => some (Except.error e)
    | some (Except.ok n) =>
      match buildNodeList fuel vs nodes with
      | none => none
      | some (Except.error e) => some (Except.error e)
      | some (Except.ok ns) => some (Except.ok (n :: ns))
end

/-- The values encountered while recursively expanding children of `v`:
`v` itself, and any member of the vector stored at an encountered value. -/
inductive Encounters (nodes : NodesMap) (v : Int) : Int → Prop
  | refl : Encounters nodes v v
  | step {w n : Int} (hw : Encounters nodes v w) (hn : n ∈ valList nodes w) :
      Encounters nodes v n

lemma encounters_trans_mem {nodes : NodesMap} {v w n : Int}
    (hw : w ∈ valList nodes v) (h : Encounters nodes w n) :
    Encounters nodes v n := by
  induction h with
  | refl => exact Encounters.step Encounters.refl hw
  | step hprev hmem ih => exact Encounters.step ih hmem

/-- A thrown `"Invalid data generated"` (or any propagated error) always
comes from an encountered value that is absent from the map. -/
lemma bn_bnl_error : ∀ fuel : Nat,
    (∀ (v : Int) (nodes : NodesMap) (e : String),
      buildNode fuel v nodes = some (Except.error e) →
      ∃ n, Encounters nodes v n ∧ findVal nodes n = none)
    ∧ (∀ (vs : List Int) (nodes : NodesMap) (e : String),
      buildNodeList fuel vs nodes = some (Except.error e) →
      ∃ w ∈ vs, ∃ n, Encounters nodes w n ∧ findVal nodes n = none) := by
  intro fuel
  induction fuel with
  | zero =>
    constructor
    · intro v nodes e h; cases h
    · intro vs nodes e h; cases h
  | succ fuel ih =>
    constructor
    · intro v nodes e h
      rw [buildNode] at h
      cases hfv : findVal nodes v with
      | none =>
        exact ⟨v, Encounters.refl, hfv⟩
      | some above =>
        simp only [hfv] at h
        cases hbl : buildNodeList fuel above nodes with
        | none => simp only [hbl] at h; cases h
        | some r =>
          simp only [hbl] at h
          cases r with
          | error e' =>
            obtain ⟨w, hw, n, henc, habs⟩ := ih.2 above nodes e' hbl
            have hwval : w ∈ valList nodes v := by
              unfold valList
              rw [hfv]
              exact hw
            exact ⟨n, encounters_trans_mem hwval henc, habs⟩
          | ok children => cases h
    · intro vs nodes e h
      cases vs with
      | nil => rw [buildNodeList] at h; cases h
      | cons v vs =>
        rw [buildNodeList] at h
        cases hbn : buildNode fuel v nodes with
        | none => simp only [hbn] at h; cases h
        | some r =>
          simp only [hbn] at h
          cases r with
          | error e' =>
            obtain ⟨n, henc, habs⟩ := ih.1 v nodes e' hbn
            exact ⟨v, List.mem_cons_self _ _, n, henc, habs⟩
          | ok nd =>
            cases hbl : buildNodeList fuel vs nodes with
            | none => simp only [hbl] at h; cases h
            | some r2 =>
              simp only [hbl] at h
              cases r2 with
              | error e' =>
                obtain ⟨w, hw, n, henc, habs⟩ := ih.2 vs nodes e' hbl
                exact ⟨w, List.mem_cons_of_mem _ hw, n, henc, habs⟩
              | ok nds => cases h

/-- Every value stored in any vector of the map is itself a key. -/
def mapClosed (nodes : NodesMap) : Prop :=
  ∀ w n, n ∈ valList nodes w → findVal nodes n ≠ none

/-- On a closed map, construction from a present root never produces an
error (it can only succeed or run out of fuel). -/
lemma bn_bnl_no_error : ∀ fuel : Nat,
    (∀ (v : Int) (nodes : NodesMap) (e : String),
      mapClosed nodes → findVal nodes v ≠ none →
      buildNode fuel v nodes ≠ some (Except.error e))
    ∧ (∀ (vs : List Int) (nodes : NodesMap) (e : String),
      mapClosed nodes → (∀ u ∈ vs, findVal nodes u ≠ none) →
      buildNodeList fuel vs nodes ≠ some (Except.error e)) := by
  intro fuel
  induction fuel with
  | zero =>
    constructor
    · intro v nodes e _ _ h; cases h
    · intro vs nodes e _ _ h; cases h
  | succ fuel ih =>
    constructor
    · intro v nodes e hcl hkey h
      rw [buildNode] at h
      cases hfv : findVal nodes v with
      | none => exact hkey hfv
      | some above =>
        simp only [hfv] at h
        have habove : ∀ u ∈ above, findVal nodes u ≠ none := by
          intro u hu
          apply hcl v u
          unfold valList
          rw [hfv]
          exact hu
        cases hbl : buildNodeList fuel above nodes with
        | none => simp only [hbl] at h; cases h
        | some r =>
          simp only [hbl] at h
          cases r with
          | error e' => exact ih.2 above nodes e' hcl habove hbl
          | ok children => cases h
    · intro vs nodes e hcl hkeys h
      cases vs with
      | nil => rw [buildNodeList] at h; cases h
      | cons v vs =>
        rw [buildNodeList] at h
        cases hbn : buildNode fuel v nodes with
        | none => simp only [hbn] at h; cases h
        | some r =>
          simp only [hbn] at h
          cases r with
          | error e' =>
            exact ih.1 v nodes e' hcl
              (hkeys v (List.mem_cons_self _ _)) hbn
          | ok nd =>
            cases hbl : buildNodeList fuel vs nodes with
            | none => simp only [hbl] at h; cases h
            | some r2 =>
              simp only [hbl] at h
              cases r2 with
              | error e' =>
                exact ih.2 vs nodes e' hcl
                  (fun u hu => hkeys u (List.mem_cons_of_mem _ hu)) hbl
              | ok nds => cases h

/-- Maps produced by `buildUpTo` are closed: every value stored in any
predecessor vector is itself a key. -/
lemma buildUpTo_closed {fuel : Nat} {high : Int} {m : NodesMap}
    (h : buildUpTo fuel high = some (Except.ok m)) : mapClosed m := by
  obtain ⟨hh, hpr⟩ := buildUpTo_ok h
  intro w n hn
  have hcnt := prg_count collatzNext fuel _ _ _ _ hpr n w
  rw [seed_valList] at hcnt
  have hpos := countOcc_pos_mem hn
  by_cases hcond : findVal m n ≠ none ∧
      findVal [((1 : Int), ([] : List Int))] n = none ∧ w = collatzNext n
  · exact hcond.1
  · rw [if_neg hcond] at hcnt
    simp [countOcc] at hcnt
    omega

/-- Whenever the list pass of the constructor fully succeeds, every listed
value was itself built successfully (with some fuel). -/
lemma bnl_ok_children :
    ∀ (fuel : Nat) (vs : List Int) (nodes : NodesMap) (ns : List Node),
      buildNodeList fuel vs nodes = some (Except.ok ns) →
      ∀ u ∈ vs, ∃ (f : Nat) (t : Node),
        buildNode f u nodes = some (Except.ok t) := by
  intro fuel
  induction fuel with
  | zero => intro vs nodes ns h; cases h
  | succ fuel ih =>
    intro vs nodes ns h u hu
    cases vs with
    | nil => exact absurd hu (List.not_mem_nil u)
    | cons v vs' =>
      rw [buildNodeList] at h
      cases hbn : buildNode fuel v nodes with
      | none => simp only [hbn] at h; cases h
      | some r =>
        simp only [hbn] at h
        cases r with
        | error e => cases h
        | ok n =>
          cases hbl : buildNodeList fuel vs' nodes with
          | none => simp only [hbl] at h; cases h
          | some r2 =>
            simp only [hbl] at h
            cases r2 with
            | error e => cases h
            | ok ns' =>
              rcases List.mem_cons.mp hu with rfl | hu'
              · exact ⟨fuel, n, hbn⟩
              · exact ih vs' nodes ns' hbl u hu'

/-- A successful construction implies its root is a key and every value in
the root's vector was itself built successfully. -/
lemma bn_ok_key :
    ∀ (fuel : Nat) (v : Int) (nodes : NodesMap) (t : Node),
      buildNode fuel v nodes = some (Except.ok t) →
      findVal nodes v ≠ none ∧
        ∀ u ∈ valList nodes v, ∃ (f : Nat) (t' : Node),
          buildNode f u nodes = some (Except.ok t') := by
  intro fuel v nodes t h
  cases fuel with
  | zero => cases h
  | succ fuel =>
    rw [buildNode] at h
    cases hfv : findVal nodes v with
    | none => simp only [hfv] at h; cases h
    | some above =>
      simp only [hfv] at h
      have hval : valList nodes v = above := by
        unfold valList; rw [hfv]; rfl
      refine ⟨by simp, ?_⟩
      intro u hu
      rw [hval] at hu
      cases hbl : buildNodeList fuel above nodes with
      | none => simp only [hbl] at h; cases h
      | some r =>
        simp only [hbl] at h
        cases r with
        | error e => cases h
        | ok children => exact bnl_ok_children fuel above nodes children hbl u hu

/-- Success propagates along the encounter relation: if the construction
rooted at `v` ever succeeds, so does the construction rooted at any value
encountered while expanding `v`. -/
lemma encounters_ok {nodes : NodesMap} {v n : Int}
    (hsucc : ∃ (f : Nat) (t : Node),
      buildNode f v nodes = some (Except.ok t))
    (henc : Encounters nodes v n) :
    ∃ (f : Nat) (t : Node), buildNode f n nodes = some (Except.ok t) := by
  induction henc with
  | refl => exact hsucc
  | step hw hmem ih =>
    obtain ⟨f, t, hbn⟩ := ih
    exact (bn_ok_key f _ nodes t hbn).2 _ hmem

/-- Claim C6: tree construction signals the data-integrity error exactly on
an absent value: an absent root errors immediately; any error implies some
recursively encountered value is absent; conversely an absent encountered
value precludes success for every fuel (the run can only raise the error or
keep recursing, as the C++ recursion either throws or never returns); and
on any map produced by `buildUpTo` the construction rooted at 1 can never
error, because every stored value is itself a key. -/
theorem c6_data_integrity (fuel fuel2 : Nat) (v high : Int)
    (m nodes : NodesMap) (e : String) :
    (findVal nodes v = none →
      buildNode (fuel2 + 1) v nodes =
        some (Except.error "Invalid data generated"))
    ∧ (buildNode fuel2 v nodes = some (Except.error e) →
        ∃ n, Encounters nodes v n ∧ findVal nodes n = none)
    ∧ ((∃ n, Encounters nodes v n ∧ findVal nodes n = none) →
        ∀ t, buildNode fuel2 v nodes ≠ some (Except.ok t))
    ∧ (buildUpTo fuel high = some (Except.ok m) →
        buildNode fuel2 1 m ≠ some (Except.error e)) := by
  refine ⟨?_, (bn_bnl_error fuel2).1 v nodes e, ?_, ?_⟩
  · intro habs
    rw [buildNode, habs]
  · rintro ⟨n, henc, habs⟩ t hok
    obtain ⟨f, t', hbn⟩ := encounters_ok ⟨fuel2, t, hok⟩ henc
    exact (bn_ok_key f n nodes t' hbn).1 habs
  · intro hok
    have hclosed := buildUpTo_closed hok
    have hone : findVal m 1 ≠ none := by
      obtain ⟨hh, hpr⟩ := buildUpTo_ok hok
      exact prg_keys_mono collatzNext fuel _ _ _ _ 1 hpr seed_key_one
    exact (bn_bnl_no_error fuel2).1 1 m e hclosed hone

/-- Witness for C6: absent root 5 on the empty map errors; that error
exhibits an encountered absent value; the same absent encountered value
rules out success at any fuel; and on the `buildUpTo 2` map rooted at 1 no
error is possible. -/
theorem c6_data_integrity_witness :
    buildNode 1 (5 : Int) [] = some (Except.error "Invalid data generated")
    ∧ (∃ n, Encounters [] 5 n ∧ findVal [] n = none)
    ∧ (∀ t, buildNode 7 (5 : Int) [] ≠ some (Except.ok t))
    ∧ buildNode 3 1 [((1 : Int), ([] : List Int))] ≠
        some (Except.error "boom") := by
  have h1 := (c6_data_integrity 64 0 5 2 [(1, [])] [] "x").1 rfl
  refine ⟨h1, ?_, ?_, ?_⟩
  · exact (c6_data_integrity 64 1 5 2 [(1, [])] []
      "Invalid data generated").2.1 h1
  · exact (c6_data_integrity 64 7 5 2 [(1, [])] [] "x").2.2.1
      ⟨5, Encounters.refl, rfl⟩
  · exact (c6_data_integrity 64 3 1 2 [(1, [])] [(1, [])] "boom").2.2.2 rfl

/-- The six characters `std::isspace` accepts in the default locale, which
`operator>>` skips before reading an integer. -/
def isCppSpace (c : Char) : Bool :=
  c = ' ' || c = '\t' || c = '\n' || c = '\x0b' || c = '\x0c' || c = '\r'

/-- Decimal value of a digit string. -/
def digitsToNat (ds : List Char) : Nat :=
  ds.foldl (fun a c => 10 * a + (c.toNat - '0'.toNat)) 0

/-- Model of `std::istringstream{s} >> upTo` for `int`: skip leading
whitespace, take an optional sign and a non-empty run of decimal digits
(trailing characters are ignored), failing when there is no digit or the
value does not fit in a 32-bit `int` (overflow sets `failbit` in C++11). -/
def streamReadInt (s : String) : Option Int :=
  let cs := s.data.dropWhile isCppSpace
  let sign : Int :=
    match cs with
    | '-' :: _ => -1
    | _ => 1
  let cs2 :=
    match cs with
    | '+' :: r => r
    | '-' :: r => r
    | r => r
  let ds := cs2.takeWhile Char.isDigit
  if ds.isEmpty then none
  else
    let v := sign * ((digitsToNat ds : Nat) : Int)
    if v < -(2 ^ 31) ∨ 2 ^ 31 - 1 < v then none else some v

/-- Translation of `int main(int argc, char const *argv[])`, modelled on the user-supplied
argument list (so "exactly two arguments" is `argc == 3` in C++): returns
the exit code decided by argument validation; the successful branch runs
`buildUpTo` and the renderer and then returns 0. -/
def main (args : List String) : Int :=
  match args with
  | [upToStr, _outFile] =>
    (match streamReadInt upToStr with
     | none => 1
     | some upTo => if upTo ≤ 0 then 1 else 0)
  | _ => 1

/-- Claim C9: the CLI exits 1 exactly when the argument count is not two or
the first argument does not stream-parse as a positive `int`, and exits 0
otherwise (the success path; errors thrown later terminate abnormally and
are out of scope of the argument-validation contract). -/
theorem c9_cli_exit (args : List String) :
    (main args = 0 ∨ main args = 1)
    ∧ (main args = 0 ↔
        ∃ a b, args = [a, b] ∧ ∃ v, streamReadInt a = some v ∧ 0 < v) := by
  match args with
  | [] =>
    refine ⟨Or.inr rfl, ?_⟩
    constructor
    · intro h; cases h
    · rintro ⟨a, b, heq, -⟩; cases heq
  | [a] =>
    refine ⟨Or.inr rfl, ?_⟩
    constructor
    · intro h; cases h
    · rintro ⟨a', b', heq, -⟩; cases heq
  | a :: b :: c :: rest =>
    refine ⟨Or.inr rfl, ?_⟩
    constructor
    · intro h; cases h
    · rintro ⟨a', b', heq, -⟩; cases heq
  | [a, b] =>
    cases hparse : streamReadInt a with
    | none =>
      have hm : main [a, b] = 1 := by
        rw [main, hparse]
      refine ⟨Or.inr hm, ?_⟩
      constructor
      · intro h; rw [hm] at h; cases h
      · rintro ⟨a', b', heq, v, hv, -⟩
        cases heq
        rw [hparse] at hv
        cases hv
    | some v =>
      by_cases hv : v ≤ 0
      · have hm : main [a, b] = 1 := by
          rw [main, hparse]
          exact if_pos hv
        refine ⟨Or.inr hm, ?_⟩
        constructor
        · intro h; rw [hm] at h; cases h
        · rintro ⟨a', b', heq, v', hv', hpos⟩
          cases heq
          rw [hparse] at hv'
          cases hv'
          omega
      · have hm : main [a, b] = 0 := by
          rw [main, hparse]
          exact if_neg hv
        refine ⟨Or.inl hm, ?_⟩
        constructor
        · intro _
          exact ⟨a, b, rfl, v, hparse, by omega⟩
        · intro _
          exact hm

end Collatz
